import Mathlib

/-!
Shallow embedding of the quickcanvas core subsystems:

* the command history manager (`src/lib/history/commandManager.ts`),
* the clipboard/transfer engine (`src/lib/fabric/clipboard.ts` and the
  export helpers),
* the selection coordinator (`src/lib/fabric/selection.ts`),
* the gallery store (`src/store/mainStore.ts`).

JS strings are modelled as Lean `String`/`List Char`, JS numbers as `ℚ`
(the claims under study do not depend on float rounding artefacts),
`null`/`undefined` as `Option`, and the asynchronous command bodies as
pure state transitions on an abstract scene-state type (the manager only
sequences them after their promise settles).
-/

/-- A scene object held by the canvas: the stable identity tag `qcId`
attached by `ensureObjectId`, plus its remaining observable content
(whitelisted properties), abstracted as a payload. -/
structure Obj where
  qcId : String
  payload : Nat
deriving DecidableEq, Repr

/-- The canvas object list, in stacking order (`canvas.getObjects()`). -/
abbrev CanvasState := List Obj

/-- A reversible command, as in `commandManager.ts`: metadata plus an
`execute`/`undo` pair acting on a scene-state type `S`. -/
structure HCommand (S : Type) where
  id : String
  label : String
  stamp : Int
  execute : S → S
  undo : S → S

/-- The `HistoryManager` state: the two stacks (arrays with `push` at the
end) and the scene the commands act on. -/
structure HMState (S : Type) where
  undoStack : List (HCommand S)
  redoStack : List (HCommand S)
  scene : S

/-- `maxDepth` of the history manager. -/
def hmMaxDepth : Nat := 250

/-- `perform(cmd, alreadyExecuted)`: execute unless already executed, push
onto `undoStack`, evict the oldest entry (`shift`) when the depth exceeds
`maxDepth`, clear `redoStack`. -/
def performStep {S : Type} (cmd : HCommand S) (alreadyExecuted : Bool) (st : HMState S) :
    HMState S :=
  let scene1 := if alreadyExecuted then st.scene else cmd.execute st.scene
  let pushed := st.undoStack ++ [cmd]
  let bounded := if hmMaxDepth < pushed.length then pushed.drop 1 else pushed
  { undoStack := bounded, redoStack := [], scene := scene1 }

/-- `undo()`: pop the top of `undoStack` (no-op when empty), run the
command's `undo`, push the command onto `redoStack`. -/
def undoStep {S : Type} (st : HMState S) : HMState S :=
  match st.undoStack.getLast? with
  | none => st
  | some cmd =>
      { undoStack := st.undoStack.dropLast
        redoStack := st.redoStack ++ [cmd]
        scene := cmd.undo st.scene }

/-- `redo()`: pop the top of `redoStack` (no-op when empty), run the
command's `execute`, push the command onto `undoStack`. -/
def redoStep {S : Type} (st : HMState S) : HMState S :=
  match st.redoStack.getLast? with
  | none => st
  | some cmd =>
      { undoStack := st.undoStack ++ [cmd]
        redoStack := st.redoStack.dropLast
        scene := cmd.execute st.scene }

/-- `canUndo()`. -/
def canUndo {S : Type} (st : HMState S) : Bool := decide (0 < st.undoStack.length)

/-- `canRedo()`. -/
def canRedo {S : Type} (st : HMState S) : Bool := decide (0 < st.redoStack.length)

/-- `clear()`. -/
def clearStep {S : Type} (st : HMState S) : HMState S :=
  { undoStack := [], redoStack := [], scene := st.scene }

/-- After a `perform`, the undo stack always ends in the performed
command. -/
lemma performStep_undoStack_concat {S : Type} (cmd : HCommand S) (b : Bool) (st : HMState S) :
    ∃ v, (performStep cmd b st).undoStack = v ++ [cmd] := by
  unfold performStep
  by_cases h : hmMaxDepth < (st.undoStack ++ [cmd]).length
  · simp only [h, if_true]
    cases hu : st.undoStack with
    | nil =>
        exfalso
        rw [hu] at h
        simp [hmMaxDepth] at h
    | cons a as =>
        exact ⟨as, by simp⟩
  · simp only [h, if_false]
    exact ⟨st.undoStack, rfl⟩

/-- **C1.** For a command whose `undo` reverses its `execute`, the
sequence `perform(cmd); undo(); redo()` restores the exact state reached
after `perform(cmd)` alone: `undo()` pops `cmd` off the undo stack, runs
`cmd.undo` (restoring the pre-perform scene) and pushes `cmd` onto the
redo stack, and `redo()` pops it back, runs `cmd.execute` and pushes it
back onto the undo stack, leaving both stacks and the scene equal to the
post-perform state. -/
theorem perform_undo_redo_roundtrip {S : Type} (cmd : HCommand S) (st0 : HMState S)
    (h : ∀ s, cmd.undo (cmd.execute s) = s) :
    undoStep (performStep cmd false st0) =
      { undoStack := (performStep cmd false st0).undoStack.dropLast
        redoStack := [cmd]
        scene := st0.scene }
    ∧ redoStep (undoStep (performStep cmd false st0)) = performStep cmd false st0 := by
  obtain ⟨v, hv⟩ := performStep_undoStack_concat cmd false st0
  have hscene : (performStep cmd false st0).scene = cmd.execute st0.scene := rfl
  have hredo : (performStep cmd false st0).redoStack = [] := rfl
  have hst1 : performStep cmd false st0 =
      { undoStack := v ++ [cmd], redoStack := [], scene := cmd.execute st0.scene } := by
    cases hmk : performStep cmd false st0 with
    | mk u r s =>
        simp only [hmk] at hv hscene hredo
        simp [hv, hscene, hredo]
  constructor
  · rw [hst1]
    simp [undoStep, List.getLast?_concat, List.dropLast_concat, h]
  · rw [hst1]
    simp [undoStep, redoStep, List.getLast?_concat, List.dropLast_concat, h]

/-- Witness for C1: a concrete increment/decrement command on an integer
scene. -/
def incCmd : HCommand Int :=
  { id := "c1", label := "inc", stamp := 0
    execute := fun s => s + 1
    undo := fun s => s - 1 }

theorem perform_undo_redo_roundtrip_witness :
    redoStep (undoStep (performStep incCmd false ⟨[], [], (0 : Int)⟩)) =
      performStep incCmd false ⟨[], [], (0 : Int)⟩ :=
  (perform_undo_redo_roundtrip incCmd ⟨[], [], (0 : Int)⟩ (fun s => by simp [incCmd])).2

/-- **C2.** Every `perform` (with either value of the `alreadyExecuted`
flag) leaves `redoStack` empty; consequently after
`perform(cmd); undo(); perform(cmd2)` a subsequent `redo()` finds
`canRedo()` false and is a no-op (executes nothing, changes nothing). -/
theorem perform_clears_redoStack {S : Type} (st : HMState S) (cmd cmd2 : HCommand S)
    (b b2 : Bool) :
    (performStep cmd b st).redoStack = []
    ∧ canRedo (performStep cmd2 b2 (undoStep (performStep cmd b st))) = false
    ∧ redoStep (performStep cmd2 b2 (undoStep (performStep cmd b st))) =
        performStep cmd2 b2 (undoStep (performStep cmd b st)) := by
  refine ⟨rfl, rfl, ?_⟩
  have h : (performStep cmd2 b2 (undoStep (performStep cmd b st))).redoStack = [] := rfl
  cases hmk : performStep cmd2 b2 (undoStep (performStep cmd b st)) with
  | mk u r s =>
      simp only [hmk] at h
      subst h
      simp [redoStep]

/-- The bounded-history invariant: the total number of retained commands
never exceeds `maxDepth`. -/
def boundedInv {S : Type} (st : HMState S) : Prop :=
  st.undoStack.length + st.redoStack.length ≤ hmMaxDepth

/-- **C3.** The invariant `undoStack.length ≤ 250` is preserved by every
operation: `perform`, `undo` and `redo` all preserve the bounded-history
invariant and keep the undo stack within `maxDepth`; when the undo stack
is full, `perform` evicts the oldest command from the bottom (FIFO) and
appends the new one at the top; and `undo()` on an empty undo stack is a
silent no-op (`canUndo()` is false and the state is unchanged). -/
theorem bounded_history {S : Type} (st : HMState S) (cmd : HCommand S) (b : Bool) :
    (boundedInv st →
       boundedInv (performStep cmd b st) ∧ boundedInv (undoStep st) ∧ boundedInv (redoStep st)
       ∧ (performStep cmd b st).undoStack.length ≤ hmMaxDepth
       ∧ (undoStep st).undoStack.length ≤ hmMaxDepth
       ∧ (redoStep st).undoStack.length ≤ hmMaxDepth)
    ∧ (st.undoStack.length = hmMaxDepth →
        (performStep cmd b st).undoStack = st.undoStack.drop 1 ++ [cmd])
    ∧ (st.undoStack = [] → undoStep st = st ∧ canUndo st = false) := by
  refine ⟨?_, ?_, ?_⟩
  · intro hinv
    have hperf : (performStep cmd b st).undoStack.length ≤ hmMaxDepth ∧
        (performStep cmd b st).redoStack = [] := by
      refine ⟨?_, rfl⟩
      unfold performStep boundedInv at *
      by_cases h : hmMaxDepth < (st.undoStack ++ [cmd]).length
      · simp only [h, if_true]
        simp only [List.length_drop, List.length_append, List.length_singleton] at *
        omega
      · simp only [h, if_false]
        simp only [List.length_append, List.length_singleton] at *
        omega
    have hundo : boundedInv (undoStep st) ∧ (undoStep st).undoStack.length ≤ hmMaxDepth := by
      unfold undoStep
      cases hl : st.undoStack.getLast? with
      | none =>
          refine ⟨hinv, ?_⟩
          show st.undoStack.length ≤ hmMaxDepth
          unfold boundedInv at hinv
          omega
      | some c =>
          have hne : st.undoStack ≠ [] := by
            intro hnil
            rw [hnil] at hl
            simp at hl
          unfold boundedInv at *
          simp only [List.length_dropLast, List.length_append, List.length_singleton]
          have hpos : 0 < st.undoStack.length := List.length_pos.mpr hne
          constructor
          · omega
          · omega
    have hredo : boundedInv (redoStep st) ∧ (redoStep st).undoStack.length ≤ hmMaxDepth := by
      unfold redoStep
      cases hl : st.redoStack.getLast? with
      | none =>
          refine ⟨hinv, ?_⟩
          show st.undoStack.length ≤ hmMaxDepth
          unfold boundedInv at hinv
          omega
      | some c =>
          have hne : st.redoStack ≠ [] := by
            intro hnil
            rw [hnil] at hl
            simp at hl
          unfold boundedInv at *
          simp only [List.length_dropLast, List.length_append, List.length_singleton]
          have hpos : 0 < st.redoStack.length := List.length_pos.mpr hne
          constructor
          · omega
          · omega
    refine ⟨?_, hundo.1, hredo.1, hperf.1, hundo.2, hredo.2⟩
    unfold boundedInv
    rw [hperf.2]
    simpa using hperf.1
  · intro hfull
    unfold performStep
    have h : hmMaxDepth < (st.undoStack ++ [cmd]).length := by
      simp only [List.length_append, List.length_singleton, hfull]
      omega
    simp only [h, if_true]
    cases hu : st.undoStack with
    | nil =>
        rw [hu] at hfull
        simp [hmMaxDepth] at hfull
    | cons a as => simp
  · intro hempty
    constructor
    · unfold undoStep
      rw [hempty]
      rfl
    · unfold canUndo
      rw [hempty]
      rfl

theorem bounded_history_witness :
    boundedInv (⟨[], [], (0 : Int)⟩ : HMState Int)
    ∧ boundedInv (performStep incCmd false ⟨[], [], (0 : Int)⟩)
    ∧ undoStep (⟨[], [], (0 : Int)⟩ : HMState Int) = ⟨[], [], (0 : Int)⟩ := by
  have hinv : boundedInv (⟨[], [], (0 : Int)⟩ : HMState Int) := by
    unfold boundedInv hmMaxDepth
    simp
  refine ⟨hinv, ?_, ?_⟩
  · exact ((bounded_history ⟨[], [], (0 : Int)⟩ incCmd false).1 hinv).1
  · exact ((bounded_history ⟨[], [], (0 : Int)⟩ incCmd false).2.2 rfl).1

/-- The JS `Map` built by `applyOrder` from `existing.map(o => [o.qcId, o])`:
on duplicate keys the last entry wins, so `get` is a last-match lookup. -/
def mapGet (objs : List Obj) (i : String) : Option Obj :=
  objs.reverse.find? (fun o => o.qcId == i)

/-- `applyOrder` inside `recordReorder`: rebuild the canvas object list in
the target identity order and append every stray object whose id is not
referenced; the canvas is then emptied and re-filled in exactly this
order. -/
def applyOrder (order : List String) (objs : List Obj) : List Obj :=
  (order.filterMap (mapGet objs)) ++ objs.filter (fun o => !(order.contains o.qcId))

lemma mapGet_eq_some {objs : List Obj} {i : String} {o : Obj}
    (h : mapGet objs i = some o) : o ∈ objs ∧ o.qcId = i := by
  unfold mapGet at h
  have hmem := List.mem_of_find?_eq_some h
  have hp := List.find?_some h
  refine ⟨List.mem_reverse.mp hmem, ?_⟩
  simpa using hp

lemma mapGet_self {objs : List Obj} (hids : (objs.map Obj.qcId).Nodup)
    {o : Obj} (ho : o ∈ objs) : mapGet objs o.qcId = some o := by
  unfold mapGet
  cases hf : objs.reverse.find? (fun x => x.qcId == o.qcId) with
  | none =>
      exfalso
      have hall := List.find?_eq_none.mp hf o (List.mem_reverse.mpr ho)
      simp at hall
  | some o' =>
      have hmem : o' ∈ objs := List.mem_reverse.mp (List.mem_of_find?_eq_some hf)
      have hpq : o'.qcId = o.qcId := by simpa using List.find?_some hf
      have : o' = o := List.inj_on_of_nodup_map hids hmem ho hpq
      rw [this]

lemma applyOrder_perm (order : List String) (objs : List Obj)
    (hord : order.Nodup) (hids : (objs.map Obj.qcId).Nodup) :
    List.Perm (applyOrder order objs) objs := by
  classical
  have hpart1nd : (order.filterMap (mapGet objs)).Nodup := by
    refine List.Nodup.filterMap ?_ hord
    intro a a' b hb hb'
    have h1 := mapGet_eq_some (Option.mem_def.mp hb)
    have h2 := mapGet_eq_some (Option.mem_def.mp hb')
    rw [← h1.2, ← h2.2]
  have hmem1 : ∀ o : Obj, o ∈ order.filterMap (mapGet objs) ↔ o ∈ objs ∧ o.qcId ∈ order := by
    intro o
    rw [List.mem_filterMap]
    constructor
    · rintro ⟨i, hi, hmg⟩
      obtain ⟨h1, h2⟩ := mapGet_eq_some hmg
      exact ⟨h1, h2 ▸ hi⟩
    · rintro ⟨h1, h2⟩
      exact ⟨o.qcId, h2, mapGet_self hids h1⟩
  have hobjs_nd : objs.Nodup := List.Nodup.of_map _ hids
  have hfil_nd : (objs.filter (fun o => order.contains o.qcId)).Nodup := hobjs_nd.filter _
  have hperm1 : List.Perm (order.filterMap (mapGet objs))
      (objs.filter (fun o => order.contains o.qcId)) := by
    apply List.perm_of_nodup_nodup_toFinset_eq hpart1nd hfil_nd
    apply List.toFinset.ext
    intro o
    rw [hmem1 o, List.mem_filter]
    simp
  unfold applyOrder
  exact (hperm1.append_right _).trans (List.filter_append_perm _ objs)

/-- **C8.** Applying a recorded order (`applyOrder`, used by both
`execute` and `undo` of a Reorder command) yields a canvas holding
exactly the same objects as before (a permutation: nothing dropped,
nothing duplicated): the identities listed in the order come first, in
that order, and every stray object absent from the order is appended. -/
theorem applyOrder_preserves_objects (order : List String) (objs : List Obj)
    (hord : order.Nodup) (hids : (objs.map Obj.qcId).Nodup) :
    List.Perm (applyOrder order objs) objs
    ∧ applyOrder order objs =
        order.filterMap (mapGet objs) ++ objs.filter (fun o => !(order.contains o.qcId)) :=
  ⟨applyOrder_perm order objs hord hids, rfl⟩

theorem applyOrder_preserves_objects_witness :
    List.Perm (applyOrder ["b"] [⟨"a", 0⟩, ⟨"b", 1⟩]) [⟨"a", 0⟩, ⟨"b", 1⟩] :=
  (applyOrder_preserves_objects ["b"] [⟨"a", 0⟩, ⟨"b", 1⟩] (by decide) (by decide)).1

/-- JS `Array.prototype.join(',')` on the character-list view of the
joined strings. -/
def joinCommaL : List (List Char) → List Char
  | [] => []
  | [a] => a
  | a :: b :: rest => a ++ ',' :: joinCommaL (b :: rest)

/-- `beforeOrder.join(',')` as used by the `recordReorder` no-op guard. -/
def joinComma (l : List String) : List Char := joinCommaL (l.map String.data)

lemma append_comma_eq {a b s t : List Char} (ha : ',' ∉ a) (hb : ',' ∉ b)
    (h : a ++ ',' :: s = b ++ ',' :: t) : a = b ∧ s = t := by
  induction a generalizing b with
  | nil =>
      cases b with
      | nil => simpa using h
      | cons y b' =>
          exfalso
          rw [List.nil_append, List.cons_append] at h
          injection h with h1 h2
          subst h1
          exact hb (List.mem_cons_self _ _)
  | cons x a' ih =>
      cases b with
      | nil =>
          exfalso
          rw [List.nil_append, List.cons_append] at h
          injection h with h1 h2
          subst h1
          exact ha (List.mem_cons_self _ _)
      | cons y b' =>
          rw [List.cons_append, List.cons_append] at h
          injection h with h1 h2
          subst h1
          have ha' : ',' ∉ a' := fun hm => ha (List.mem_cons_of_mem _ hm)
          have hb' : ',' ∉ b' := fun hm => hb (List.mem_cons_of_mem _ hm)
          obtain ⟨he, hs⟩ := ih ha' hb' h2
          exact ⟨by rw [he], hs⟩

lemma joinCommaL_inj : ∀ l1 l2 : List (List Char),
    (∀ x ∈ l1, x ≠ [] ∧ ',' ∉ x) → (∀ x ∈ l2, x ≠ [] ∧ ',' ∉ x) →
    joinCommaL l1 = joinCommaL l2 → l1 = l2
  | [], [], _, _, _ => rfl
  | [], [b], _, h2, h => by
      exfalso
      simp only [joinCommaL] at h
      exact (h2 b (by simp)).1 h.symm
  | [], _ :: _ :: _, _, _, h => by
      exfalso
      simp only [joinCommaL] at h
      have := h.symm
      simp [List.append_eq_nil] at this
  | [a], [], h1, _, h => by
      exfalso
      simp only [joinCommaL] at h
      exact (h1 a (by simp)).1 h
  | _ :: _ :: _, [], _, _, h => by
      exfalso
      simp only [joinCommaL] at h
      simp [List.append_eq_nil] at h
  | [a], [b], _, _, h => by
      simp only [joinCommaL] at h
      rw [h]
  | [a], b :: c :: r, h1, _, h => by
      exfalso
      simp only [joinCommaL] at h
      apply (h1 a (by simp)).2
      rw [h]
      simp
  | a :: c :: r, [b], _, h2, h => by
      exfalso
      simp only [joinCommaL] at h
      apply (h2 b (by simp)).2
      rw [← h]
      simp
  | a :: c :: r, b :: d :: r', h1, h2, h => by
      simp only [joinCommaL] at h
      obtain ⟨hab, hrest⟩ :=
        append_comma_eq (h1 a (by simp)).2 (h2 b (by simp)).2 h
      have htail := joinCommaL_inj (c :: r) (d :: r')
        (fun x hx => h1 x (List.mem_cons_of_mem _ hx))
        (fun x hx => h2 x (List.mem_cons_of_mem _ hx)) hrest
      rw [hab, htail]

/-- The command constructed by `recordReorder`: `execute` applies the
after-order, `undo` the before-order, both via `applyOrder`. -/
def reorderCmd (beforeOrder afterOrder : List String) : HCommand CanvasState :=
  { id := "", label := "Reorder", stamp := 0
    execute := applyOrder afterOrder
    undo := applyOrder beforeOrder }

/-- `recordReorder`: skip recording when the comma-joined orders
coincide, otherwise register the reorder command with the history
manager (`perform` with the `alreadyApplied` flag). The second component
is the command that was recorded, if any. -/
def recordReorder (beforeOrder afterOrder : List String) (alreadyApplied : Bool)
    (st : HMState CanvasState) : HMState CanvasState × Option (HCommand CanvasState) :=
  if joinComma beforeOrder = joinComma afterOrder then (st, none)
  else (performStep (reorderCmd beforeOrder afterOrder) alreadyApplied st,
        some (reorderCmd beforeOrder afterOrder))

lemma map_data_inj {l l' : List String} (h : l.map String.data = l'.map String.data) :
    l = l' := by
  have hinj : Function.Injective String.data := fun a b hab => by
    cases a; cases b; exact congrArg String.mk hab
  exact List.map_injective_iff.mpr hinj h

/-- **C7.** For identity-id lists (nonempty, comma-free ids, as produced
by `ensureObjectId`), `recordReorder` records no command exactly when the
before-order equals the after-order as a sequence; in that case the
history state is untouched, and in particular a reorder with unchanged
order `[A,B,C]` on a clean history leaves `canUndo()` false. -/
theorem recordReorder_noop_guard (beforeOrder afterOrder : List String)
    (st : HMState CanvasState) (b : Bool)
    (h : ∀ s ∈ beforeOrder ++ afterOrder, s.data ≠ [] ∧ ',' ∉ s.data) :
    ((recordReorder beforeOrder afterOrder b st).2 = none ↔ beforeOrder = afterOrder)
    ∧ (beforeOrder = afterOrder → recordReorder beforeOrder afterOrder b st = (st, none))
    ∧ ((recordReorder ["A", "B", "C"] ["A", "B", "C"] b ⟨[], [], []⟩).1 = ⟨[], [], []⟩
       ∧ canUndo (recordReorder ["A", "B", "C"] ["A", "B", "C"] b ⟨[], [], []⟩).1 = false) := by
  have hjoin : joinComma beforeOrder = joinComma afterOrder ↔ beforeOrder = afterOrder := by
    constructor
    · intro hj
      apply map_data_inj
      refine joinCommaL_inj _ _ ?_ ?_ hj
      · intro x hx
        obtain ⟨s, hs, rfl⟩ := List.mem_map.mp hx
        exact h s (List.mem_append_left _ hs)
      · intro x hx
        obtain ⟨s, hs, rfl⟩ := List.mem_map.mp hx
        exact h s (List.mem_append_right _ hs)
    · intro he
      rw [he]
  refine ⟨?_, ?_, ?_, ?_⟩
  · unfold recordReorder
    by_cases hj : joinComma beforeOrder = joinComma afterOrder
    · rw [if_pos hj]
      simp [hjoin.mp hj]
    · rw [if_neg hj]
      constructor
      · intro hx
        exact absurd hx (by simp)
      · intro hbe
        exact absurd (hjoin.mpr hbe) hj
  · intro he
    unfold recordReorder
    rw [if_pos (by rw [he])]
  · unfold recordReorder
    rw [if_pos rfl]
  · unfold recordReorder
    rw [if_pos rfl]
    rfl

theorem recordReorder_noop_guard_witness :
    (recordReorder ["A", "B", "C"] ["A", "B", "C"] true ⟨[], [], []⟩).2 = none :=
  ((recordReorder_noop_guard ["A", "B", "C"] ["A", "B", "C"] ⟨[], [], []⟩ true
    (by decide)).1).mpr rfl

/-- A member of a (possibly multi-object) selection, as `selection.ts`
sees it: the fabric `type` tag, whether the object has a `fill` property
at all (`'fill' in obj`), and the fill value (`none` models
`null`/`undefined`). -/
structure SelObj where
  otype : String
  hasFillProp : Bool
  fill : Option String
deriving DecidableEq, Repr

/-- `supportsFill`: images, groups and active selections are excluded
(the additional `isType('image')` check coincides with the tag test),
everything else supports fill iff it carries a `fill` property. -/
def supportsFill (o : SelObj) : Bool :=
  if o.otype == "image" || o.otype == "activeSelection" || o.otype == "group" then false
  else o.hasFillProp

/-- One iteration of the `forEachObject` loop in `extractUnifiedFill`:
the accumulator is the pair of the mutable `unified` and `mixed`
variables. -/
def unifiedStep (acc : Option String × Bool) (child : SelObj) : Option String × Bool :=
  if !(supportsFill child) then acc
  else
    match child.fill with
    | none => acc
    | some f =>
        match acc.1 with
        | none => (some f, acc.2)
        | some u => if u = f then acc else (acc.1, true)

/-- The selection target handed to `extractUnifiedFill`: either an
active selection (with its member list) or a single object. -/
inductive SelTarget where
  | selection (children : List SelObj)
  | single (o : SelObj)

/-- `extractUnifiedFill`: over an active selection, fold the loop above
and return `null` when mixed, else the unified value; over a single
object, its fill when it supports fill, else `null`. -/
def extractUnifiedFill : SelTarget → Option String
  | .selection children =>
      let r := children.foldl unifiedStep (none, false)
      if r.2 then none else r.1
  | .single o => if supportsFill o then o.fill else none


lemma unifiedStep_snd_true (acc : Option String × Bool) (c : SelObj) (h : acc.2 = true) :
    (unifiedStep acc c).2 = true := by
  unfold unifiedStep
  by_cases hs : supportsFill c
  · simp only [hs, Bool.not_true, Bool.false_eq_true, if_false]
    cases c.fill with
    | none => exact h
    | some f =>
        cases hacc : acc.1 with
        | none => exact h
        | some u =>
            by_cases he : u = f
            · simp only [he, if_true]
              exact h
            · simp only [he, if_false]
  · simp only [Bool.not_eq_true] at hs
    simp only [hs, Bool.not_false, if_true]
    exact h

lemma unifiedStep_fst_of_some (acc : Option String × Bool) (c : SelObj) (u : String)
    (h : acc.1 = some u) : (unifiedStep acc c).1 = some u := by
  unfold unifiedStep
  by_cases hs : supportsFill c
  · simp only [hs, Bool.not_true, Bool.false_eq_true, if_false]
    cases c.fill with
    | none => exact h
    | some f =>
        rw [h]
        by_cases he : u = f
        · simp only [he, if_true]
          exact h.trans (congrArg some he)
        · simp only [he, if_false]
  · simp only [Bool.not_eq_true] at hs
    simp only [hs, Bool.not_false, if_true]
    exact h

lemma unifiedFold_mixed_sticky :
    ∀ (l : List SelObj) (acc : Option String × Bool), acc.2 = true →
      (l.foldl unifiedStep acc).2 = true
  | [], _, h => h
  | c :: t, acc, h => by
      rw [List.foldl_cons]
      exact unifiedFold_mixed_sticky t _ (unifiedStep_snd_true acc c h)

lemma unifiedFold_some_stable :
    ∀ (l : List SelObj) (acc : Option String × Bool) (u : String), acc.1 = some u →
      (l.foldl unifiedStep acc).1 = some u
  | [], _, _, h => h
  | c :: t, acc, u, h => by
      rw [List.foldl_cons]
      exact unifiedFold_some_stable t _ u (unifiedStep_fst_of_some acc c u h)

lemma unifiedStep_mismatch (c : SelObj) (u w : String) (hs : supportsFill c = true)
    (hw : c.fill = some w) (hne : ¬ u = w) :
    unifiedStep (some u, false) c = (some u, true) := by
  unfold unifiedStep
  simp only [hs, Bool.not_true, Bool.false_eq_true, if_false, hw]
  simp only [if_neg hne]

lemma unifiedFold_sound_from_some :
    ∀ (l : List SelObj) (u : String),
      (l.foldl unifiedStep (some u, false)).2 = false →
      ∀ o ∈ l, supportsFill o = true → ∀ w, o.fill = some w → w = u
  | [], _, _, o, ho, _, _, _ => absurd ho (List.not_mem_nil o)
  | c :: t, u, h, o, ho, hs, w, hw => by
      rw [List.foldl_cons] at h
      have hsnd : (unifiedStep (some u, false) c).2 = false := by
        by_contra hc
        rw [Bool.not_eq_false] at hc
        rw [unifiedFold_mixed_sticky t _ hc] at h
        exact absurd h (by simp)
      rcases List.mem_cons.mp ho with heq | hot
      · by_contra hne
        have hs' : supportsFill c = true := heq ▸ hs
        have hw' : c.fill = some w := heq ▸ hw
        rw [unifiedStep_mismatch c u w hs' hw' (fun he => hne he.symm)] at hsnd
        exact absurd hsnd (by simp)
      · have hfst : (unifiedStep (some u, false) c).1 = some u :=
          unifiedStep_fst_of_some _ c u rfl
        have hstep : unifiedStep (some u, false) c = (some u, false) := by
          cases hst : unifiedStep (some u, false) c with
          | mk a m =>
              rw [hst] at hfst hsnd
              have ha : a = some u := hfst
              have hm : m = false := hsnd
              rw [ha, hm]
        rw [hstep] at h
        exact unifiedFold_sound_from_some t u h o hot hs w hw

lemma unifiedFold_none_cases :
    ∀ (l : List SelObj),
      (l.foldl unifiedStep (none, false)).2 = false →
      ∀ v, (l.foldl unifiedStep (none, false)).1 = some v →
      ∀ o ∈ l, supportsFill o = true → ∀ w, o.fill = some w → w = v
  | [], _, v, hv, o, ho, _, _, _ => absurd ho (List.not_mem_nil o)
  | c :: t, h, v, hv, o, ho, hs, w, hw => by
      rw [List.foldl_cons] at h hv
      by_cases hcs : supportsFill c
      · cases hcf : c.fill with
        | none =>
            have hstep : unifiedStep (none, false) c = (none, false) := by
              unfold unifiedStep
              simp only [hcs, Bool.not_true, Bool.false_eq_true, if_false, hcf]
            rw [hstep] at h hv
            rcases List.mem_cons.mp ho with heq | hot
            · have hw' : c.fill = some w := heq ▸ hw
              rw [hw'] at hcf
              exact absurd hcf (by simp)
            · exact unifiedFold_none_cases t h v hv o hot hs w hw
        | some f =>
            have hstep : unifiedStep (none, false) c = (some f, false) := by
              unfold unifiedStep
              simp only [hcs, Bool.not_true, Bool.false_eq_true, if_false, hcf]
            rw [hstep] at h hv
            have hf_eq_v : f = v := by
              have hstable := unifiedFold_some_stable t (some f, false) f rfl
              rw [hstable] at hv
              exact Option.some.inj hv
            rcases List.mem_cons.mp ho with heq | hot
            · have hw' : c.fill = some w := heq ▸ hw
              rw [hw'] at hcf
              rw [Option.some.inj hcf, hf_eq_v]
            · have hwu := unifiedFold_sound_from_some t f h o hot hs w hw
              rw [hwu, hf_eq_v]
      · have hstep : unifiedStep (none, false) c = (none, false) := by
          unfold unifiedStep
          simp only [Bool.not_eq_true] at hcs
          simp only [hcs, Bool.not_false, if_true]
        rw [hstep] at h hv
        rcases List.mem_cons.mp ho with heq | hot
        · have hs' : supportsFill c = true := heq ▸ hs
          exact absurd hs' hcs
        · exact unifiedFold_none_cases t h v hv o hot hs w hw

lemma unifiedFold_some_of_support :
    ∀ (l : List SelObj) (acc : Option String × Bool) (o : SelObj), o ∈ l →
      supportsFill o = true → ∀ w, o.fill = some w →
      ∃ v, (l.foldl unifiedStep acc).1 = some v
  | [], _, o, ho, _, _, _ => absurd ho (List.not_mem_nil o)
  | c :: t, acc, o, ho, hs, w, hw => by
      rw [List.foldl_cons]
      rcases List.mem_cons.mp ho with heq | hot
      · have hs' : supportsFill c = true := heq ▸ hs
        have hw' : c.fill = some w := heq ▸ hw
        have hcases : ∃ u, (unifiedStep acc c).1 = some u := by
          cases hacc : acc.1 with
          | none =>
              refine ⟨w, ?_⟩
              unfold unifiedStep
              simp only [hs', Bool.not_true, Bool.false_eq_true, if_false, hw', hacc]
          | some u =>
              exact ⟨u, unifiedStep_fst_of_some acc c u hacc⟩
        obtain ⟨u, hfst⟩ := hcases
        exact ⟨u, unifiedFold_some_stable t _ u hfst⟩
      · exact unifiedFold_some_of_support t _ o hot hs w hw

/-- A rectangle with the given fill, for the concrete fill-unification
examples. -/
def rectObj (f : String) : SelObj :=
  { otype := "rect", hasFillProp := true, fill := some f }

/-- **C6.** `extractUnifiedFill` over a multi-object selection reports a
unified fill only if every fill-supporting member carrying a fill value
agrees on it, and reports `null` (mixed) whenever two supporting members
carry distinct fill values; concretely, two rectangles filled `#111111`
report `#111111`, while fills `#111111` and `#222222` report `null`. -/
theorem extractUnifiedFill_unified_or_mixed (children : List SelObj) :
    (∀ v, extractUnifiedFill (.selection children) = some v →
       ∀ o ∈ children, supportsFill o = true → ∀ w, o.fill = some w → w = v)
    ∧ (∀ o1 ∈ children, ∀ o2 ∈ children, supportsFill o1 = true → supportsFill o2 = true →
       ∀ w1 w2, o1.fill = some w1 → o2.fill = some w2 → ¬ w1 = w2 →
       extractUnifiedFill (.selection children) = none)
    ∧ extractUnifiedFill (.selection [rectObj "#111111", rectObj "#111111"]) = some "#111111"
    ∧ extractUnifiedFill (.selection [rectObj "#111111", rectObj "#222222"]) = none := by
  refine ⟨?_, ?_, by decide, by decide⟩
  · intro v hv o ho hs w hw
    simp only [extractUnifiedFill] at hv
    by_cases hm : (children.foldl unifiedStep (none, false)).2 = true
    · rw [if_pos hm] at hv
      exact absurd hv (by simp)
    · rw [if_neg hm] at hv
      rw [Bool.not_eq_true] at hm
      exact unifiedFold_none_cases children hm v hv o ho hs w hw
  · intro o1 ho1 o2 ho2 hs1 hs2 w1 w2 hw1 hw2 hne
    simp only [extractUnifiedFill]
    by_cases hm : (children.foldl unifiedStep (none, false)).2 = true
    · rw [if_pos hm]
    · exfalso
      rw [Bool.not_eq_true] at hm
      obtain ⟨v, hv⟩ := unifiedFold_some_of_support children (none, false) o1 ho1 hs1 w1 hw1
      have h1 := unifiedFold_none_cases children hm v hv o1 ho1 hs1 w1 hw1
      have h2 := unifiedFold_none_cases children hm v hv o2 ho2 hs2 w2 hw2
      exact hne (h1.trans h2.symm)

theorem extractUnifiedFill_unified_or_mixed_witness :
    extractUnifiedFill (.selection [rectObj "#111111", rectObj "#222222"]) = none :=
  (extractUnifiedFill_unified_or_mixed [rectObj "#111111", rectObj "#222222"]).2.1
    (rectObj "#111111") (by simp) (rectObj "#222222") (by simp) (by decide) (by decide)
    "#111111" "#222222" rfl rfl (by decide)

/-- The environment of one `copyToSystemClipboard` call: which selection
branch is taken, the outcomes of the export steps, and the availability
and success of the OS clipboard capabilities (which may be absent or
denied at any call). The image branch's network/bitmap recovery is
abstracted as the set of MIME items it collected. -/
structure ClipEnv where
  isImage : Bool
  imageItems : List String
  svgExport : Option String
  pngExportOk : Bool
  clipboardAvailable : Bool
  richWriteAvailable : Bool
  richWriteSucceeds : Bool
  writeTextAvailable : Bool
  writeTextSucceeds : Bool
deriving DecidableEq, Repr

/-- The observable outcome of `copyToSystemClipboard`: its boolean
result, the statuses reported through `setStatus`, and which clipboard
write tiers were actually attempted. -/
structure ClipResult where
  returned : Bool
  statuses : List String
  richWriteAttempted : Bool
  writeTextAttempted : Bool
deriving DecidableEq, Repr

/-- The MIME keys of the `items` record after the collection phase: the
image branch keeps whatever bitmap recovery produced; the vector branch
adds the three SVG representations when `exportSelectionToSVGString`
returned a truthy string, and `image/png` when the PNG export
succeeded. -/
def collectItems (env : ClipEnv) : List String :=
  if env.isImage then env.imageItems
  else
    (match env.svgExport with
     | some s => if s = "" then [] else ["image/svg+xml", "text/plain", "text/html"]
     | none => []) ++ (if env.pngExportOk then ["image/png"] else [])

/-- JS truthiness of the local `svg` variable (`null` on the image
branch or when the export threw; the empty string is falsy). -/
def svgTruthy (env : ClipEnv) : Bool :=
  if env.isImage then false
  else
    match env.svgExport with
    | some s => !(s == "")
    | none => false

/-- The trailing write tiers of `copyToSystemClipboard`, reached when the
rich multi-format write was not attempted or threw: the `writeText`
fallback is guarded by `!Object.keys(items).length && svg`, then the
empty-items report, then the bare `return false`. -/
def copyTail (env : ClipEnv) (items : List String) (richAttempted : Bool) : ClipResult :=
  if items.isEmpty && svgTruthy env && (env.clipboardAvailable && env.writeTextAvailable) then
    if env.writeTextSucceeds then
      { returned := true, statuses := ["Copied SVG text"]
        richWriteAttempted := richAttempted, writeTextAttempted := true }
    else
      { returned := false, statuses := ["Clipboard blocked by browser"]
        richWriteAttempted := richAttempted, writeTextAttempted := true }
  else if items.isEmpty then
    { returned := false, statuses := ["Clipboard API unavailable"]
      richWriteAttempted := richAttempted, writeTextAttempted := false }
  else
    { returned := false, statuses := []
      richWriteAttempted := richAttempted, writeTextAttempted := false }

/-- `copyToSystemClipboard`: attempt the rich multi-format write when the
API is present and items were collected (a thrown write falls through),
then the trailing tiers. -/
def copyToSystemClipboard (env : ClipEnv) : ClipResult :=
  let items := collectItems env
  if env.clipboardAvailable && env.richWriteAvailable && !items.isEmpty then
    if env.richWriteSucceeds then
      { returned := true, statuses := ["Copied to system clipboard"]
        richWriteAttempted := true, writeTextAttempted := false }
    else copyTail env items true
  else copyTail env items false

/-- A non-image selection whose SVG and PNG exports succeeded, with the
rich write API present but denied, and a working `writeText`. -/
def envRichDenied : ClipEnv :=
  { isImage := false, imageItems := [], svgExport := some "<svg></svg>", pngExportOk := true
    clipboardAvailable := true, richWriteAvailable := true, richWriteSucceeds := false
    writeTextAvailable := true, writeTextSucceeds := true }

/-- As `envRichDenied` but with the rich multi-format write API absent. -/
def envNoRichApi : ClipEnv :=
  { isImage := false, imageItems := [], svgExport := some "<svg></svg>", pngExportOk := true
    clipboardAvailable := true, richWriteAvailable := false, richWriteSucceeds := false
    writeTextAvailable := true, writeTextSucceeds := true }

/-- A non-image selection for which no exportable representation was
collected (both exports threw). -/
def envNothingExported : ClipEnv :=
  { isImage := false, imageItems := [], svgExport := none, pngExportOk := false
    clipboardAvailable := true, richWriteAvailable := true, richWriteSucceeds := true
    writeTextAvailable := true, writeTextSucceeds := true }

/-- **C4.** (counterexample evidence) For a non-image selection with an
exported SVG, a denied rich write — and likewise an absent rich write
API — does *not* fall back to `writeText`: the text tier is guarded by
`items` being empty, which an exported SVG contradicts, so the call
returns `false` without attempting `writeText` and without reporting any
status (in particular "Clipboard blocked by browser" is never reached);
only the no-exportable-representation report of "Clipboard API
unavailable" behaves as claimed. -/
theorem copyToSystemClipboard_text_fallback_unreachable :
    (copyToSystemClipboard envRichDenied =
      { returned := false, statuses := []
        richWriteAttempted := true, writeTextAttempted := false })
    ∧ (copyToSystemClipboard envNoRichApi =
      { returned := false, statuses := []
        richWriteAttempted := false, writeTextAttempted := false })
    ∧ (copyToSystemClipboard envNothingExported =
      { returned := false, statuses := ["Clipboard API unavailable"]
        richWriteAttempted := false, writeTextAttempted := false }) := by
  refine ⟨by decide, by decide, by decide⟩

/-- The generalisation of the C4 counterexample: whenever an SVG string
was exported (truthy), the `writeText` tier can never run, whatever the
clipboard capabilities do. -/
theorem copyToSystemClipboard_never_writes_text (env : ClipEnv)
    (h : svgTruthy env = true) :
    (copyToSystemClipboard env).writeTextAttempted = false := by
  have hitems : collectItems env ≠ [] := by
    unfold svgTruthy at h
    unfold collectItems
    by_cases hi : env.isImage
    · rw [if_pos hi] at h
      exact absurd h (by simp)
    · rw [if_neg hi] at h
      rw [if_neg hi]
      cases hsvg : env.svgExport with
      | none =>
          rw [hsvg] at h
          exact absurd h (by simp)
      | some s =>
          rw [hsvg] at h
          have hs : ¬ s = "" := by simpa using h
          simp [hs]
  have htail : ∀ b, (copyTail env (collectItems env) b).writeTextAttempted = false := by
    intro b
    unfold copyTail
    have hne : (collectItems env).isEmpty = false := by
      cases hc : collectItems env with
      | nil => exact absurd hc hitems
      | cons x xs => rfl
    simp [hne]
  unfold copyToSystemClipboard
  by_cases h1 : env.clipboardAvailable && env.richWriteAvailable && !(collectItems env).isEmpty
  · simp only [h1, if_true]
    by_cases h2 : env.richWriteSucceeds
    · simp only [h2, if_true]
    · simp only [h2, Bool.false_eq_true, if_false]
      exact htail true
  · simp only [h1, Bool.false_eq_true, if_false]
    exact htail false

theorem copyToSystemClipboard_never_writes_text_witness :
    (copyToSystemClipboard envRichDenied).writeTextAttempted = false :=
  copyToSystemClipboard_never_writes_text envRichDenied (by decide)

/-- `classifyClipboardObject` (from `lib/fabric/types.ts`): buckets the
cloned object by its `type` tag. -/
def classifyClipboardObject (t : String) : String :=
  if t == "image" then "image"
  else if t == "activeSelection" then "selection"
  else "object"

/-- The in-process fallback clipboard entry (`FabricClipboardEntry`). -/
structure ClipboardEntryM where
  kind : String
  clone : SelObj
deriving DecidableEq, Repr

/-- The application state visible to `copy()`: the scene object list (in
stacking order, with their whitelisted properties), the current active
object, the in-process clipboard slot and the reported statuses. -/
structure AppState where
  scene : List Obj
  active : Option SelObj
  clipboard : Option ClipboardEntryM
  statuses : List String

/-- `clone()` of the active object: a fresh value copy of its
whitelisted properties (the clone is a new object, not a scene member). -/
def cloneObj (o : SelObj) : SelObj := o

/-- `copy()` from `useFabricCanvas`: read the active object (no-op when
absent), clone it into the in-process clipboard entry, then attempt the
OS clipboard write — whose exports run on further clones added to a
temporary offscreen canvas (`exportSelectionToSVGString` /
`exportSelectionToPNGBlob`), never on the scene canvas. -/
def copy (st : AppState) (env : ClipEnv) : AppState :=
  match st.active with
  | none => st
  | some a =>
      let cloned := cloneObj a
      let entry : ClipboardEntryM :=
        { kind := classifyClipboardObject cloned.otype, clone := cloned }
      let r := copyToSystemClipboard { env with isImage := cloned.otype == "image" }
      { scene := st.scene, active := st.active, clipboard := some entry
        statuses := st.statuses ++ r.statuses }

/-- **C10.** `copy()` never mutates the scene: whatever the clipboard
environment does (success, fallback or failure), the canvas object list
— identities, whitelisted properties and stacking order — and the
active selection are unchanged; with no active object the whole state is
untouched, and otherwise only the in-process clipboard entry and the
reported statuses change. -/
theorem copy_preserves_scene (st : AppState) (env : ClipEnv) :
    (copy st env).scene = st.scene
    ∧ (copy st env).active = st.active
    ∧ (st.active = none → copy st env = st) := by
  cases hact : st.active with
  | none =>
      refine ⟨?_, ?_, fun _ => ?_⟩ <;> simp [copy, hact]
  | some a =>
      refine ⟨?_, ?_, fun hcontra => ?_⟩
      · simp [copy, hact]
      · simp [copy, hact]
      · exact absurd hcontra (by simp)

theorem copy_preserves_scene_witness :
    copy { scene := [], active := none, clipboard := none, statuses := [] } envNothingExported
      = { scene := [], active := none, clipboard := none, statuses := [] } :=
  (copy_preserves_scene _ _).2.2 rfl

/-- The double-quote character. -/
def quotC : Char := Char.ofNat 34

/-- The apostrophe character. -/
def apoC : Char := Char.ofNat 39

def isQuoteChar (c : Char) : Bool := c == quotC || c == apoC

/-- The tag-name character class `[a-zA-Z0-9:_-]` of the tag regex in
`addSVGString`. -/
def isTagNameChar (c : Char) : Bool :=
  (c ≥ 'a' && c ≤ 'z') || (c ≥ 'A' && c ≤ 'Z') || (c ≥ '0' && c ≤ '9')
    || c == ':' || c == '_' || c == '-'

/-- Whitespace trimmed by JS `String.prototype.trim` (the cases occurring
in style declarations). -/
def isWsChar (c : Char) : Bool := c == ' ' || c == '\t' || c == '\n' || c == '\r'

def trimChars (l : List Char) : List Char :=
  ((l.dropWhile isWsChar).reverse.dropWhile isWsChar).reverse

/-- The repeated-`exec` scan of `/<([a-zA-Z0-9:_-]+)([^>]*)>/g` over the
sanitized markup, collecting the attribute group of every tag: a match
needs a nonempty name run right after `<` and a later `>` (the `[^>]*`
class cannot cross one); scanning resumes after the consumed `>`. The
fuel argument only bounds the recursion; it is called with more fuel
than characters. -/
def collectTags : Nat → List Char → List (List Char)
  | 0, _ => []
  | _, [] => []
  | fuel + 1, c :: rest =>
      if c == '<' then
        let name := rest.takeWhile isTagNameChar
        if name.isEmpty then collectTags fuel rest
        else
          let afterName := rest.drop name.length
          let attrs := afterName.takeWhile (fun ch => !(ch == '>'))
          let afterAttrs := afterName.drop attrs.length
          match afterAttrs with
          | '>' :: rest2 => attrs :: collectTags fuel rest2
          | _ => []
      else collectTags fuel rest

/-- The tail `("|')([^"']+)("')` of the attribute regexes of
`addSVGString`, matched at a fixed position: an opening quote, a
nonempty quote-free value, then — as written in the source — the
*literal two-character sequence* quote-then-apostrophe (the group is
`("')`, not `("|')`). The quote-free value class leaves the regex
engine no backtracking freedom. -/
def matchQuotedValue (l : List Char) : Option (List Char) :=
  match l with
  | [] => none
  | q :: rest =>
      if isQuoteChar q then
        let content := rest.takeWhile (fun ch => !(isQuoteChar ch))
        let tail := rest.drop content.length
        if content.isEmpty then none
        else if tail.take 2 = [quotC, apoC] then some content
        else none
      else none

/-- Case-insensitive character comparison (the regexes carry the `i`
flag). -/
def lowerEq (a b : Char) : Bool := a.toLower == b.toLower

def startsWithCI : List Char → List Char → Bool
  | [], _ => true
  | _ :: _, [] => false
  | p :: ps, c :: cs => lowerEq p c && startsWithCI ps cs

/-- First-match scan of `attrs.match(/pat("|')([^"']+)("')/i)` for a
literal attribute pattern such as `id=`: try every position from the
left; on failure of the full pattern, advance one character. Returns the
value capture group of the first full match. -/
def findAttrValue (pat : List Char) : List Char → Option (List Char)
  | [] => none
  | c :: rest =>
      if startsWithCI pat (c :: rest) then
        match matchQuotedValue ((c :: rest).drop pat.length) with
        | some v => some v
        | none => findAttrValue pat rest
      else findAttrValue pat rest

/-- Declaration parsing of a `style` attribute value:
`split(/;+/)`, then each declaration `split(":")`, both halves trimmed,
kept only when both are truthy (nonempty). Splitting on single `;`
instead of runs only produces extra empty pieces, which the truthiness
filter drops either way. -/
def parseStyleDecls (style : List Char) : List (List Char × List Char) :=
  (style.splitOn ';').filterMap (fun decl =>
    match decl.splitOn ':' with
    | k :: v :: _ =>
        let k' := trimChars k
        let v' := trimChars v
        if k'.isEmpty || v'.isEmpty then none else some (k', v')
    | _ => none)

/-- Assoc-list lookup with JS-object overwrite semantics (a later entry
for the same key wins). -/
def styleLookup {α : Type} (m : List (List Char × α)) (k : List Char) : Option α :=
  (m.reverse.find? (fun p => p.1 == k)).map Prod.snd

/-- The `styleMap` built by `addSVGString`: for every tag whose attribute
text matches both the `id=...` and `style=...` regexes, record the parsed
declarations under the id. -/
def styleMapOf (svg : List Char) : List (List Char × List (List Char × List Char)) :=
  (collectTags (svg.length + 1) svg).filterMap (fun attrs =>
    match findAttrValue "id=".data attrs, findAttrValue "style=".data attrs with
    | some i, some st => some (i, parseStyleDecls st)
    | _, _ => none)

/-- A scene object materialized by the external SVG loader, restricted
to the fields the style-recovery pass reads and writes (`none` models
`null`/`undefined`). -/
structure ParsedSVGObj where
  id : Option String
  name : Option String
  privId : Option String
  fill : Option String
  stroke : Option String
  strokeWidth : Option ℚ
  opacity : Option ℚ
deriving DecidableEq, Repr

/-- JS truthiness of an optional string (empty string is falsy). -/
def truthyStr : Option String → Option String
  | some s => if s = "" then none else some s
  | none => none

/-- `obj.id || obj.name || obj._id`. -/
def oidOf (o : ParsedSVGObj) : Option String :=
  match truthyStr o.id with
  | some s => some s
  | none =>
      match truthyStr o.name with
      | some s => some s
      | none => truthyStr o.privId

/-- JS `parseFloat` restricted to plain decimal literals (optional sign,
digits, optional fraction), the only shapes reaching it from parsed
declarations here; anything else is NaN (`none`). -/
def parseFloatQ (l : List Char) : Option ℚ :=
  let l1 := l.dropWhile isWsChar
  let sgned : ℚ × List Char :=
    match l1 with
    | c :: rest => if c == '-' then (-1, rest) else if c == '+' then (1, rest) else (1, c :: rest)
    | [] => (1, [])
  let intPart := sgned.2.takeWhile Char.isDigit
  let rest1 := sgned.2.drop intPart.length
  let fracPart :=
    match rest1 with
    | c :: rest2 => if c == '.' then rest2.takeWhile Char.isDigit else []
    | [] => []
  if intPart.isEmpty && fracPart.isEmpty then none
  else
    let digitsToNat (ds : List Char) : Nat := ds.foldl (fun acc c => acc * 10 + (c.toNat - 48)) 0
    let ip : ℚ := (digitsToNat intPart : ℚ)
    let fp : ℚ := (digitsToNat fracPart : ℚ) / ((10 : ℚ) ^ fracPart.length)
    some (sgned.1 * (ip + fp))

/-- The per-object style-recovery pass of `addSVGString`: look the
object's id up in the style map and re-apply `fill`, `stroke`,
`stroke-width` and `opacity` when the parser left them unset (values
stored in the map are nonempty, hence truthy). -/
def applyStyleRecovery (smap : List (List Char × List (List Char × List Char)))
    (o : ParsedSVGObj) : ParsedSVGObj :=
  match oidOf o with
  | none => o
  | some oid =>
      match styleLookup smap oid.data with
      | none => o
      | some st =>
          let o1 :=
            match styleLookup st "fill".data with
            | some v =>
                if o.fill = none ∨ o.fill = some "" then { o with fill := some (String.mk v) }
                else o
            | none => o
          let o2 :=
            match styleLookup st "stroke".data with
            | some v =>
                if o1.stroke = none ∨ o1.stroke = some "" then
                  { o1 with stroke := some (String.mk v) }
                else o1
            | none => o1
          let o3 :=
            match styleLookup st "stroke-width".data with
            | some v =>
                if o2.strokeWidth = none then
                  match parseFloatQ v with
                  | some q => { o2 with strokeWidth := some q }
                  | none => o2
                else o2
            | none => o2
          match styleLookup st "opacity".data with
          | some v =>
              if o3.opacity = none then
                match parseFloatQ v with
                | some q => { o3 with opacity := some q }
                | none => o3
              else o3
          | none => o3

/-- The spec's example markup: a rect with an `id` and an inline `style`
declaring the fill, and no `fill` attribute. -/
def c5svg : String := "<svg><rect id=\"r1\" style=\"fill:#112233\"/></svg>"

/-- The rect as the external parser materializes it under the claim's
hypothesis that the inline style was dropped: id present, fill unset. -/
def c5parsedRect : ParsedSVGObj :=
  { id := some "r1", name := none, privId := none, fill := none, stroke := none
    strokeWidth := none, opacity := none }

/-- A control input containing the literal quote-apostrophe sequence the
miswritten closing group `("')` demands after each attribute value. -/
def c5control : List Char :=
  "<svg><rect id=".data ++ [quotC] ++ "r1".data ++ [quotC, apoC]
    ++ " style=".data ++ [quotC] ++ "fill:#112233".data ++ [quotC, apoC] ++ "/></svg>".data

/-- **C5.** (counterexample evidence) The attribute regexes of
`addSVGString` end in the group `("')` — the literal two-character
sequence quote-apostrophe — instead of `("|')`, so `id="r1"` and
`style="fill:#112233"` never match: the style map of the spec's example
SVG is empty and the materialized rect's fill stays unset instead of
becoming `#112233`. On the control input, whose attribute values are
followed by a literal `"'`, the same matcher fires and the recovery pass
does set the fill — the failure is the regex, not the recovery logic. -/
theorem addSVGString_style_recovery_broken :
    styleMapOf c5svg.data = []
    ∧ applyStyleRecovery (styleMapOf c5svg.data) c5parsedRect = c5parsedRect
    ∧ (applyStyleRecovery (styleMapOf c5svg.data) c5parsedRect).fill = none
    ∧ (applyStyleRecovery (styleMapOf c5control) c5parsedRect).fill = some "#112233" := by
  refine ⟨by decide, by decide, by decide, by decide⟩

/-- A serialized fabric object as `addToGallery` sees it: the positional
and angular fields the normalization touches, plus all remaining
whitelisted properties canonically bundled in `rest`. -/
structure SFO where
  left : Option ℚ
  top : Option ℚ
  angle : Option ℚ
  rest : String
deriving DecidableEq, Repr

/-- The gallery payload: a single serialized object, or the serialized
members of an active selection. -/
inductive GalleryPayload where
  | single (o : SFO)
  | selection (objs : List SFO)
deriving DecidableEq, Repr

/-- A position-normalized serialized object (the shape produced by the
hash-normalization pass: numeric `left`/`top`, rounded `angle`). -/
structure NormSFO where
  left : ℚ
  top : ℚ
  angle : Option ℚ
  rest : String
deriving DecidableEq, Repr

/-- The structural checksum. `ohash` canonically serializes and hashes
its input; it is embedded as the canonical normalized value itself, so
checksum equality is normalized-payload equality. -/
inductive Checksum where
  | single (o : NormSFO)
  | selection (objs : List NormSFO)
deriving DecidableEq, Repr

/-- JS `Math.round` (halves round toward positive infinity) over the
rational embedding of JS numbers. -/
def jsRound (q : ℚ) : ℚ := (⌊q + 1 / 2⌋ : ℚ)

/-- The 2-decimal rounding `Math.round(n * 100) / 100` applied by the
normalization (`round`). -/
def round2 (q : ℚ) : ℚ := jsRound (q * 100) / 100

/-- `Math.min(...)` of a nonempty list (the selection branch only
reaches it with a nonempty payload). -/
def listMin : List ℚ → ℚ
  | [] => 0
  | x :: xs => xs.foldl min x

/-- The hash normalization of `addToGallery`: a single object's position
is zeroed and its angle rounded; a nonempty selection has the minimum
`left`/`top` offsets subtracted (missing coordinates default to 0) and
all touched values rounded to two decimals; an empty selection is left
as is. -/
def normalizeForHash : GalleryPayload → Checksum
  | .single o => .single { left := 0, top := 0, angle := o.angle.map round2, rest := o.rest }
  | .selection objs =>
      if objs.isEmpty then .selection []
      else
        .selection (objs.map (fun p =>
          { left := round2 (p.left.getD 0 - listMin (objs.map (fun q => q.left.getD 0)))
            top := round2 (p.top.getD 0 - listMin (objs.map (fun q => q.top.getD 0)))
            angle := p.angle.map round2
            rest := p.rest }))

/-- A gallery entry (`GalleryItem`); the preview thumbnail is not
modelled. -/
structure GalleryItem where
  id : String
  kind : String
  payload : GalleryPayload
  checksum : Checksum
  addedAt : Int
deriving DecidableEq, Repr

/-- The gallery store state: the entry list (most recent first) and the
module-level `checksumIndex` map (checksum → gallery id). -/
structure GalleryState where
  gallery : List GalleryItem
  checksumIndex : List (Checksum × String)
deriving DecidableEq, Repr

/-- JS `Map.get` over the insertion list (a later `set` for the same key
wins). -/
def indexLookup (idx : List (Checksum × String)) (c : Checksum) : Option String :=
  (idx.reverse.find? (fun p => p.1 == c)).map Prod.snd

/-- JS `Map.set` (observationally: append; `indexLookup` takes the last
binding). -/
def indexInsert (idx : List (Checksum × String)) (c : Checksum) (v : String) :
    List (Checksum × String) :=
  idx ++ [(c, v)]

/-- The creation path of `addToGallery`: a fresh entry at the front,
list capped at 200 (`slice(0, 200)`), checksum registered. -/
def addNewItem (st : GalleryState) (kind : String) (payload : GalleryPayload)
    (freshId : String) (now : Int) : GalleryState × GalleryItem :=
  ({ gallery :=
       (({ id := freshId, kind := kind, payload := payload
           checksum := normalizeForHash payload, addedAt := now } : GalleryItem)
         :: st.gallery).take 200
     checksumIndex := indexInsert st.checksumIndex (normalizeForHash payload) freshId },
   { id := freshId, kind := kind, payload := payload
     checksum := normalizeForHash payload, addedAt := now })

/-- `addToGallery`: compute the normalized checksum; when the checksum
index knows it and the indexed entry is still present, bump that entry
to the front with a fresh `addedAt` (`[bumped, ...slice(0,idx),
...slice(idx+1)]`, then `slice(0,200)`) and return it without creating
anything; otherwise (unknown checksum, or index drift) fall through to
the creation path. `freshId` and `now` stand for `genId()` and
`Date.now()`. -/
def addToGallery (st : GalleryState) (kind : String) (payload : GalleryPayload)
    (freshId : String) (now : Int) : GalleryState × GalleryItem :=
  match indexLookup st.checksumIndex (normalizeForHash payload) with
  | some existingId =>
      match st.gallery.find? (fun g => g.id == existingId) with
      | some existing =>
          ({ gallery :=
               ({ existing with addedAt := now }
                 :: st.gallery.eraseP (fun g => g.id == existingId)).take 200
             checksumIndex := st.checksumIndex },
           { existing with addedAt := now })
      | none => addNewItem st kind payload freshId now
  | none => addNewItem st kind payload freshId now

lemma take200_length_le {α : Type} (l : List α) : (l.take 200).length ≤ 200 := by
  rw [List.length_take]
  exact min_le_left _ _

lemma take200_cons_head? {α : Type} (x : α) (l : List α) :
    ((x :: l).take 200).head? = some x := rfl


/-- The bump path of `addToGallery`, explicitly: when the checksum index
resolves to an entry that is still present, that entry is moved to the
front with a fresh timestamp and returned. -/
lemma addToGallery_bump (st : GalleryState) (kind : String) (payload : GalleryPayload)
    (freshId : String) (now : Int) (existingId : String) (existing : GalleryItem)
    (hidx : indexLookup st.checksumIndex (normalizeForHash payload) = some existingId)
    (hfind : st.gallery.find? (fun g => g.id == existingId) = some existing) :
    addToGallery st kind payload freshId now =
      ({ gallery := ({ existing with addedAt := now }
           :: st.gallery.eraseP (fun g => g.id == existingId)).take 200
         checksumIndex := st.checksumIndex },
       { existing with addedAt := now }) := by
  unfold addToGallery
  split
  next x hx =>
      rw [hidx] at hx
      injection hx with hx
      subst hx
      split
      next y hy =>
          rw [hfind] at hy
          injection hy with hy
          subst hy
          rfl
      next hy =>
          rw [hfind] at hy
          cases hy
  next hx =>
      rw [hidx] at hx
      cases hx

/-- **C9.** `addToGallery` deduplicates by the position-normalized
structural checksum and caps the gallery: after every call the gallery
holds at most 200 entries with the returned (new or bumped) item at the
front (most-recently-used order); and adding the same single shape twice
— identical structural properties, arbitrary different positions — to an
empty gallery yields exactly one entry: the original entry bumped to the
front with a fresh timestamp, no second entry, because the single-object
normalization zeroes `left`/`top` before hashing. -/
theorem addToGallery_dedupes_and_caps :
    (∀ (st : GalleryState) (kind : String) (payload : GalleryPayload)
        (freshId : String) (now : Int),
      (addToGallery st kind payload freshId now).1.gallery.length ≤ 200
      ∧ (addToGallery st kind payload freshId now).1.gallery.head? =
          some (addToGallery st kind payload freshId now).2)
    ∧ (∀ (o : SFO) (l2 t2 : Option ℚ) (kind id1 id2 : String) (n1 n2 : Int),
      (addToGallery
          (addToGallery ⟨[], []⟩ kind (.single o) id1 n1).1
          kind (.single { o with left := l2, top := t2 }) id2 n2).1.gallery =
        [{ id := id1, kind := kind, payload := .single o
           checksum := normalizeForHash (.single o), addedAt := n2 }]) := by
  constructor
  · intro st kind payload freshId now
    unfold addToGallery
    split
    · split
      · exact ⟨take200_length_le _, take200_cons_head? _ _⟩
      · exact ⟨take200_length_le _, take200_cons_head? _ _⟩
    · exact ⟨take200_length_le _, take200_cons_head? _ _⟩
  · intro o l2 t2 kind id1 id2 n1 n2
    have h1 : addToGallery ⟨[], []⟩ kind (.single o) id1 n1 =
        ({ gallery := [{ id := id1, kind := kind, payload := .single o
                         checksum := normalizeForHash (.single o), addedAt := n1 }]
           checksumIndex := [(normalizeForHash (.single o), id1)] },
         { id := id1, kind := kind, payload := .single o
           checksum := normalizeForHash (.single o), addedAt := n1 }) := rfl
    have hlook : indexLookup [(normalizeForHash (.single o), id1)]
        (normalizeForHash (.single o)) = some id1 := by
      unfold indexLookup
      simp
    have hfind : List.find? (fun g => g.id == id1)
        [({ id := id1, kind := kind, payload := .single o
            checksum := normalizeForHash (.single o), addedAt := n1 } : GalleryItem)] =
        some { id := id1, kind := kind, payload := .single o
               checksum := normalizeForHash (.single o), addedAt := n1 } := by
      simp
    have h2 := addToGallery_bump
      ({ gallery := [{ id := id1, kind := kind, payload := .single o
                       checksum := normalizeForHash (.single o), addedAt := n1 }]
         checksumIndex := [(normalizeForHash (.single o), id1)] })
      kind (.single { o with left := l2, top := t2 }) id2 n2 id1
      ({ id := id1, kind := kind, payload := .single o
         checksum := normalizeForHash (.single o), addedAt := n1 })
      hlook hfind
    rw [h1, h2]
    have herase : List.eraseP (fun g => g.id == id1)
        [({ id := id1, kind := kind, payload := .single o
            checksum := normalizeForHash (.single o), addedAt := n1 } : GalleryItem)] = [] := by
      simp [List.eraseP_cons]
    rw [herase]
    rfl
